import Mathlib

/-!
Verification of the core logic of `src/app.py` (GitHub Repository Analyzer).

The Python source is shallowly embedded: each source function mentioned by the
claims is translated into an executable Lean definition over explicit inputs.
The external GitHub API is modelled as explicit data: the paginated commit
iterator becomes a list of scan events (yielded commits or raised exceptions),
a retried operation becomes a function from the attempt index to its outcome,
and wall-clock readings become explicit integer parameters.  Calendar dates at
day granularity (the `%Y-%m-%d` strings of the source) are modelled as day
numbers (`Nat`); lexicographic order on equal-length zero-padded date strings
agrees with chronological order, so sorting by day number is faithful.
-/

namespace RepoAnalyse

/-! ## Reference Parser — `get_repo_info` (src/app.py lines 49-55)

The source matches `re.search(r'github\.com/([^/]+)/([^/]+)/?$', url)`.
`re.search` looks for the leftmost start position where the pattern matches.
The character class `[^/]` matches any character except `'/'` (including
`'\n'`), so each group is forced to be exactly one maximal slash-free run;
backtracking to a shorter run makes the following literal `/` fail, hence the
greedy scan below is the complete backtracking semantics at one position.
Python's `$` is a zero-width assertion matching at the very end of the string
and also just before a newline that is the last character; the `nl` flag below
switches that second alternative on (Python behaviour) or off (strict end). -/

def hostChars : List Char := "github.com/".toList

def notSlash (c : Char) : Bool := c != '/'

/-- Python `$`: end of input, or (when `nl` is set) just before a final newline. -/
def dollarOk (nl : Bool) (l : List Char) : Bool :=
  l.isEmpty || (nl && l == ['\n'])

/-- Match `([^/]+)/([^/]+)/?$` against `rest`, the text right after
`github.com/`.  `dropWhile notSlash` stops at the first `'/'` or at the end,
so the head test `c = '/'` in each arm can only succeed on the literal slash
the pattern requires (it is in fact always true on a `cons`). -/
def matchTail (nl : Bool) (rest : List Char) : Option (String × String) :=
  let owner := rest.takeWhile notSlash
  match rest.dropWhile notSlash with
  | c :: r2 =>
    if c = '/' then
      if owner.isEmpty then none
      else
        let name := r2.takeWhile notSlash
        if name.isEmpty then none
        else
          match r2.dropWhile notSlash with
          | [] => some (owner.asString, name.asString)
          | c2 :: r4 =>
            if c2 = '/' then
              if dollarOk nl r4 then some (owner.asString, name.asString) else none
            else none
    else none
  | [] => none

/-- `re.search`: try the pattern at every start position, leftmost first. -/
def searchFrom (nl : Bool) : List Char → Option (String × String)
  | [] => none
  | c :: rest =>
    if hostChars.isPrefixOf (c :: rest) then
      match matchTail nl ((c :: rest).drop hostChars.length) with
      | some g => some g
      | none => searchFrom nl rest
    else searchFrom nl rest

/-- `get_repo_info` (lines 49-55): `None, None` is modelled as `none`,
a successful match as `some (owner, name)`. -/
def get_repo_info (url : String) : Option (String × String) :=
  searchFrom true url.toList

/-- A list of characters containing no `'/'`. -/
def SlashFree (l : List Char) : Prop := ∀ c ∈ l, c ≠ '/'

/-- The URL form stated by the spec: the URL ends in
`github.com/<owner>/<name>` with an optional trailing slash, where owner and
name are nonempty slash-free segments.  This definition follows the SPEC's
words, to be compared with the behaviour of `get_repo_info`. -/
def specUrlForm (url : String) : Prop :=
  ∃ pre owner name t : List Char,
    url.toList = pre ++ hostChars ++ owner ++ '/' :: name ++ t ∧
    owner ≠ [] ∧ name ≠ [] ∧ SlashFree owner ∧ SlashFree name ∧
    (t = [] ∨ t = ['/'])

/-- The spec form, widened by the two tails Python's `$` additionally accepts:
a single trailing newline after the name or after the optional slash. -/
def specUrlFormExt (url : String) : Prop :=
  ∃ pre owner name t : List Char,
    url.toList = pre ++ hostChars ++ owner ++ '/' :: name ++ t ∧
    owner ≠ [] ∧ name ≠ [] ∧ SlashFree owner ∧ SlashFree name ∧
    (t = [] ∨ t = ['/'] ∨ t = ['\n'] ∨ t = ['/', '\n'])

/-! ## Resilient Request Executor — `handle_github_request` (lines 135-163)

`for attempt in range(3)` with typed exception handlers.  The wrapped call is
modelled as `op : Nat → GhOutcome α` giving the outcome of the invocation made
on each attempt index; `now` is the value of `time.time()` (the model keeps it
constant across one execution — no claim depends on the clock advancing).
`st.stop()` halts the whole Streamlit script: it is modelled as the `halted`
result; a re-raised exception is `raised`; the unreachable `return None` after
the loop is `fellThrough`. -/

inductive GhOutcome (α : Type) where
  | ok (v : α)
  | rateLimitExceeded (resetAt : Option Int)
  | badCredentials
  | badAttribute
  | otherError (e : Nat)

inductive FatalKind where
  | rateLimit
  | badCredentials
  | badAttribute
deriving DecidableEq

inductive ReqResult (α : Type) where
  | success (v : α)
  | halted (k : FatalKind)
  | raised (e : Nat)
  | fellThrough
deriving DecidableEq

structure ExecTrace (α : Type) where
  result : ReqResult α
  sleeps : List Int
  calls : Nat
deriving DecidableEq

def max_retries : Nat := 3

def retry_delay : Int := 2

/-- The sleeps performed in the `RateLimitExceededException` handler on a
non-final attempt (lines 147-152): an optional bounded wait until the
advertised reset time plus a 5 second buffer, capped at 60 seconds, followed
unconditionally by the linear-backoff sleep `retry_delay * (attempt + 1)`. -/
def rateLimitSleeps (resetAt : Option Int) (now : Int) (attempt : Nat) : List Int :=
  (match resetAt with
   | some r =>
     let wait := r - now + 5
     if 0 < wait then [min wait 60] else []
   | none => []) ++ [retry_delay * ((attempt : Int) + 1)]

/-- The retry loop, recursing over the list of remaining attempt indices
(`range(max_retries)`); `attempts.isEmpty` after the head is exactly the
source's `attempt == max_retries - 1` final-attempt test. -/
def handleFrom (op : Nat → GhOutcome α) (now : Int) :
    List Nat → List Int → Nat → ExecTrace α
  | [], sleeps, calls => ⟨.fellThrough, sleeps, calls⟩
  | attempt :: restAttempts, sleeps, calls =>
    match op attempt with
    | .ok v => ⟨.success v, sleeps, calls + 1⟩
    | .rateLimitExceeded r =>
      if restAttempts.isEmpty then ⟨.halted .rateLimit, sleeps, calls + 1⟩
      else handleFrom op now restAttempts (sleeps ++ rateLimitSleeps r now attempt) (calls + 1)
    | .badCredentials => ⟨.halted .badCredentials, sleeps, calls + 1⟩
    | .badAttribute => ⟨.halted .badAttribute, sleeps, calls + 1⟩
    | .otherError e =>
      if restAttempts.isEmpty then ⟨.raised e, sleeps, calls + 1⟩
      else handleFrom op now restAttempts (sleeps ++ [retry_delay * ((attempt : Int) + 1)]) (calls + 1)

def handle_github_request (op : Nat → GhOutcome α) (now : Int) : ExecTrace α :=
  handleFrom op now (List.range max_retries) [] 0

/-! ## Commit Activity Aggregator — `get_commit_activity` (lines 57-108)

The paginated commit iteration is a list of `ScanEvent`s: each yielded commit
carries its author date as `Option Nat` (a UTC day number; `none` models the
`commit.commit / author / date` chain being missing, i.e. the guarded `if` at
line 86 not firing — note line 90 still increments `processed_commits`).  An
exception raised by the iterator is an error event.  The pre-seeded
`defaultdict` is an association list in seeding order; the guard
`if commit_date in commit_activity` (line 88) means no key is ever added, so
an increment touches only an existing key. -/

inductive ScanEvent where
  | commit (date : Option Nat)
  | rateLimitErr
  | otherErr
deriving DecidableEq

inductive Advisory where
  | lowRateLimit
  | capped
  | rateLimitAbort
  | historyWarning
deriving DecidableEq

structure ActivityResult where
  rows : List (Nat × Nat)
  advisories : List Advisory
deriving DecidableEq

inductive ScanExit where
  | finished
  | cappedHit
  | rateLimited
  | otherFailed
deriving DecidableEq

def commit_limit : Nat := 5000

/-- Lines 63-65: seed every day of `[start, start + days]` with count 0. -/
def seedDays (startDay days : Nat) : List (Nat × Nat) :=
  (List.range (days + 1)).map fun i => (startDay + i, 0)

/-- `commit_activity[d] += 1` on the (unique) existing entry with key `d`. -/
def bumpDay (d : Nat) (b : List (Nat × Nat)) : List (Nat × Nat) :=
  b.map fun p => if p.1 = d then (p.1, p.2 + 1) else p

/-- Lines 86-89: bucket a single commit; out-of-window or missing dates are
skipped silently. -/
def recordCommit (b : List (Nat × Nat)) (date : Option Nat) : List (Nat × Nat) :=
  match date with
  | none => b
  | some d => if b.any (fun p => p.1 == d) then bumpDay d b else b

/-- The `for commit in commits_paginated_list` loop, lines 80-95: the cap test
precedes each commit's processing, and an exception raised by the iterator
ends the loop with the corresponding exit. -/
def scanLoop : List ScanEvent → List (Nat × Nat) → Nat → List (Nat × Nat) × Nat × ScanExit
  | [], b, p => (b, p, .finished)
  | .commit d :: rest, b, p =>
    if commit_limit ≤ p then (b, p, .cappedHit)
    else scanLoop rest (recordCommit b d) (p + 1)
  | .rateLimitErr :: _, b, p => (b, p, .rateLimited)
  | .otherErr :: _, b, p => (b, p, .otherFailed)

/-- Python `sorted` on the day keys (all distinct): a stable sort by `≤`. -/
def sortDates (l : List Nat) : List Nat :=
  l.insertionSort (fun a b => a ≤ b)

/-- Python `sorted` on `(date, count)` pairs compares tuples lexicographically;
the keys are distinct, so sorting by the key alone is the same order. -/
def sortRows (l : List (Nat × Nat)) : List (Nat × Nat) :=
  l.insertionSort (fun a b => a.1 ≤ b.1)

/-- `get_commit_activity` (lines 57-108).  `hasCapacity` is the result of the
`check_rate_limit` gate at line 68.  The three degraded paths are lines 70
(no capacity), 103 (`RateLimitExceededException`: rows rebuilt from the keys
with count 0) and 104-105 (other exception: falls through to line 107 and
returns the accumulated bucket). -/
def get_commit_activity (hasCapacity : Bool) (startDay days : Nat)
    (events : List ScanEvent) : ActivityResult :=
  let seeded := seedDays startDay days
  if hasCapacity = false then
    ⟨(sortDates (seeded.map Prod.fst)).map (fun d => (d, 0)), [.lowRateLimit]⟩
  else
    match scanLoop events seeded 0 with
    | (b, _, .finished) => ⟨sortRows b, []⟩
    | (b, _, .cappedHit) => ⟨sortRows b, [.capped]⟩
    | (b, _, .rateLimited) => ⟨(sortDates (b.map Prod.fst)).map (fun d => (d, 0)), [.rateLimitAbort]⟩
    | (b, _, .otherFailed) => ⟨sortRows b, [.historyWarning]⟩

/-- The calendar days of the requested window, ascending. -/
def windowKeys (startDay days : Nat) : List Nat :=
  (List.range (days + 1)).map fun i => startDay + i

/-- Observer: the count stored for day `d` in a `(date, count)` row list. -/
def rowsLookup (d : Nat) : List (Nat × Nat) → Option Nat
  | [] => none
  | (k, v) :: b => if k = d then some v else rowsLookup d b

/-! ## Contributor Ranking Aggregator — `get_contributor_stats` (lines 165-204)

A fetched contributor carries the fields read at lines 188-191 plus `fetchOk`,
modelling whether the per-contributor attribute reads inside the `try` of
lines 186-195 succeed (on failure the record is skipped with a warning).
`fetched` is the outcome of `handle_github_request(list, repo.get_contributors())`:
`Except.error` is an exception propagated to the handler at line 202 (a halt
via `st.stop` inside the executor would end the whole script instead and is
not a return value).  The aggregator's `None, None` is modelled as `none`. -/

structure RawContributor where
  login : String
  contributions : Nat
  htmlUrl : String
  avatarUrl : String
  fetchOk : Bool
deriving DecidableEq

structure ContribRecord where
  login : String
  commits : Nat
  profile_url : String
  avatar_url : String
deriving DecidableEq

/-- The sort order of line 179: by `contributions`, `reverse=True`. -/
def contribGe (a b : RawContributor) : Prop :=
  b.contributions ≤ a.contributions

instance : DecidableRel contribGe :=
  fun a b => inferInstanceAs (Decidable (b.contributions ≤ a.contributions))

instance : IsTotal RawContributor contribGe :=
  ⟨fun a b => Nat.le_total b.contributions a.contributions⟩

instance : IsTrans RawContributor contribGe :=
  ⟨fun _ _ _ h1 h2 => Nat.le_trans h2 h1⟩

/-- `sorted(contributors, key=lambda x: x.contributions, reverse=True)`:
Python's sort is stable, and with `reverse=True` ties still keep their
original order; a stable descending sort has a unique result, realised here
by insertion sort under `contribGe`. -/
def sortContributors (l : List RawContributor) : List RawContributor :=
  l.insertionSort contribGe

/-- Lines 177-181: stable descending sort, then `[:10]`. -/
def rankContributors (l : List RawContributor) : List RawContributor :=
  (sortContributors l).take 10

def toContribRecord (c : RawContributor) : ContribRecord :=
  ⟨c.login, c.contributions, c.htmlUrl, c.avatarUrl⟩

/-- The loop of lines 184-195: keep the records whose field extraction
succeeds, in order. -/
def extractRecords (l : List RawContributor) : List ContribRecord :=
  (l.filter (fun c => c.fetchOk)).map toContribRecord

/-- `get_contributor_stats` (lines 165-204), first component of the returned
pair. -/
def get_contributor_stats (hasCapacity : Bool)
    (fetched : Except Nat (List RawContributor)) : Option (List ContribRecord) :=
  if hasCapacity = false then none
  else
    match fetched with
    | .error _ => none
    | .ok contributors =>
      if contributors.isEmpty then none
      else
        let data := extractRecords (rankContributors contributors)
        if data.isEmpty then none else some data

/-! ## Recent-commit rendering — `main` (lines 332-345)

Character-level embedding of the Python string operations: `len` counts code
points (`pyLen`), slicing `[:n]` takes the first `n` code points
(`pyTakeChars`), and `message.split('\n')[0]` is the prefix before the first
newline (`pyFirstLine`).  `commit_info.message` is falsy when missing or
empty, giving the `"No commit message"` fallback.  The `%Y-%m-%d %H:%M`
timestamp formatting is presentation only and kept abstract as the day
number. -/

structure RawCommit where
  sha : String
  message : Option String
  authorName : Option String
  authorDate : Option Nat
  htmlUrl : String
deriving DecidableEq

structure RecentCommitRecord where
  shortHash : String
  summaryLine : String
  authorName : String
  authorDate : Option Nat
  url : String
deriving DecidableEq

def pyLen (s : String) : Nat := s.toList.length

def pyTakeChars (n : Nat) (s : String) : String := (s.toList.take n).asString

def pyFirstLine (s : String) : String := (s.toList.takeWhile (fun c => c != '\n')).asString

/-- Line 341: `(m.split('\n')[0][:50] + '...' if len(m) > 50 else
m.split('\n')[0]) if m else "No commit message"`.  Note the `> 50` test is on
the WHOLE message, not on its first line. -/
def summaryOf (message : Option String) : String :=
  match message with
  | none => "No commit message"
  | some m =>
    if m = "" then "No commit message"
    else if 50 < pyLen m then pyTakeChars 50 (pyFirstLine m) ++ "..." else pyFirstLine m

/-- Lines 334-345: build one row of the recent-commits table. -/
def renderRecentCommit (c : RawCommit) : RecentCommitRecord :=
  { shortHash := pyTakeChars 7 c.sha
    summaryLine := summaryOf c.message
    authorName := match c.authorName with | some n => n | none => "N/A"
    authorDate := c.authorDate
    url := c.htmlUrl }

/-- The summary line as the CLAIM describes it: the first line of the message,
truncated to 50 characters with an ellipsis exactly when the first line itself
is longer than 50 characters. -/
def claimSummaryLine (m : String) : String :=
  if 50 < pyLen (pyFirstLine m) then pyTakeChars 50 (pyFirstLine m) ++ "..." else pyFirstLine m

/-! ## Lemmas about the Reference Parser -/

theorem isPrefixOf_iff_append : ∀ (p l : List Char), p.isPrefixOf l = true ↔ ∃ s, l = p ++ s
  | [], l => by simp [List.isPrefixOf]
  | a :: p, [] => by simp [List.isPrefixOf]
  | a :: p, b :: l => by
    simp only [List.isPrefixOf, Bool.and_eq_true, beq_iff_eq, List.cons_append,
      List.cons.injEq, isPrefixOf_iff_append p l]
    constructor
    · rintro ⟨rfl, s, rfl⟩
      exact ⟨s, rfl, rfl⟩
    · rintro ⟨s, rfl, rfl⟩
      exact ⟨rfl, s, rfl⟩

theorem slashFree_of_takeWhile (l : List Char) : SlashFree (l.takeWhile notSlash) := by
  intro c hc
  have := List.mem_takeWhile_imp hc
  simpa [notSlash] using this

theorem dropWhile_head_slash (l : List Char) :
    ∀ {c r}, l.dropWhile notSlash = c :: r → c = '/' := by
  induction l with
  | nil => intro c r h; simp [List.dropWhile] at h
  | cons a l ih =>
    intro c r h
    by_cases ha : notSlash a = true
    · rw [List.dropWhile_cons_of_pos ha] at h
      exact ih h
    · rw [List.dropWhile_cons_of_neg ha] at h
      cases h
      simpa [notSlash] using ha

/-- Soundness of one anchored match: a successful `matchTail` exhibits the
owner/name/tail decomposition of its input. -/
theorem matchTail_some {nl : Bool} {rest : List Char} {o n : String}
    (h : matchTail nl rest = some (o, n)) :
    ∃ owner name t : List Char,
      rest = owner ++ '/' :: name ++ t ∧ owner ≠ [] ∧ name ≠ [] ∧
      SlashFree owner ∧ SlashFree name ∧
      (t = [] ∨ t = ['/'] ∨ (nl = true ∧ t = ['/', '\n'])) := by
  unfold matchTail at h
  rcases h1 : rest.dropWhile notSlash with _ | ⟨c, r2⟩
  · simp [h1] at h
  have hc : c = '/' := dropWhile_head_slash rest h1
  subst hc
  simp only [h1] at h
  by_cases ho : (rest.takeWhile notSlash).isEmpty = true
  · simp [ho] at h
  by_cases hn : (r2.takeWhile notSlash).isEmpty = true
  · simp [ho, hn] at h
  have hrest : rest.takeWhile notSlash ++ '/' :: r2 = rest := by
    have hx := List.takeWhile_append_dropWhile notSlash rest
    rwa [h1] at hx
  have ho' : rest.takeWhile notSlash ≠ [] := by simpa [List.isEmpty_iff] using ho
  have hn' : r2.takeWhile notSlash ≠ [] := by simpa [List.isEmpty_iff] using hn
  rcases h2 : r2.dropWhile notSlash with _ | ⟨c2, r4⟩
  · have hr2 : r2.takeWhile notSlash = r2 := by
      have hx := List.takeWhile_append_dropWhile notSlash r2
      rwa [h2, List.append_nil] at hx
    refine ⟨rest.takeWhile notSlash, r2.takeWhile notSlash, [], ?_, ho', hn',
      slashFree_of_takeWhile rest, slashFree_of_takeWhile r2, Or.inl rfl⟩
    rw [List.append_nil, hr2, hrest]
  have hc2 : c2 = '/' := dropWhile_head_slash r2 h2
  subst hc2
  simp only [h2] at h
  have hr2 : r2.takeWhile notSlash ++ '/' :: r4 = r2 := by
    have hx := List.takeWhile_append_dropWhile notSlash r2
    rwa [h2] at hx
  by_cases hd : dollarOk nl r4 = true
  · have hr4 : r4 = [] ∨ (nl = true ∧ r4 = ['\n']) := by
      unfold dollarOk at hd
      rcases (Bool.or_eq_true _ _).mp hd with h4 | h4
      · exact Or.inl (by simpa [List.isEmpty_iff] using h4)
      · have h5 := (Bool.and_eq_true _ _).mp h4
        exact Or.inr ⟨h5.1, by simpa using h5.2⟩
    refine ⟨rest.takeWhile notSlash, r2.takeWhile notSlash, '/' :: r4, ?_, ho', hn',
      slashFree_of_takeWhile rest, slashFree_of_takeWhile r2, ?_⟩
    · rw [List.append_assoc, List.cons_append, hr2, hrest]
    · rcases hr4 with rfl | ⟨hnl, rfl⟩
      · exact Or.inr (Or.inl rfl)
      · exact Or.inr (Or.inr ⟨hnl, rfl⟩)
  · simp [ho, hn, hd] at h

/-- Soundness of the search: a successful `get_repo_info`-style search
exhibits a start position where the anchored pattern matches. -/
theorem searchFrom_some {nl : Bool} : ∀ {l : List Char} {g : String × String},
    searchFrom nl l = some g →
    ∃ pre rest, l = pre ++ hostChars ++ rest ∧ matchTail nl rest = some g := by
  intro l
  induction l with
  | nil => intro g h; simp [searchFrom] at h
  | cons c l ih =>
    intro g h
    unfold searchFrom at h
    by_cases hp : hostChars.isPrefixOf (c :: l) = true
    · rw [if_pos hp] at h
      obtain ⟨s, hs⟩ := (isPrefixOf_iff_append _ _).mp hp
      rcases hm : matchTail nl ((c :: l).drop hostChars.length) with _ | g'
      · rw [hm] at h
        obtain ⟨pre, rest, hpre, hmt⟩ := ih h
        exact ⟨c :: pre, rest, by rw [hpre]; rfl, hmt⟩
      · rw [hm] at h
        cases h
        refine ⟨[], s, by simpa using hs, ?_⟩
        rw [hs, List.drop_left] at hm
        exact hm
    · rw [if_neg hp] at h
      obtain ⟨pre, rest, hpre, hmt⟩ := ih h
      exact ⟨c :: pre, rest, by rw [hpre]; rfl, hmt⟩

theorem takeWhile_all {p : Char → Bool} :
    ∀ {l : List Char}, (∀ c ∈ l, p c = true) → l.takeWhile p = l ∧ l.dropWhile p = [] := by
  intro l
  induction l with
  | nil => intro _; exact ⟨rfl, rfl⟩
  | cons a l ih =>
    intro h
    have ha : p a = true := h a (by simp)
    have := ih (fun c hc => h c (by simp [hc]))
    rw [List.takeWhile_cons_of_pos ha, List.dropWhile_cons_of_pos ha]
    exact ⟨by rw [this.1], this.2⟩

theorem takeWhile_append_stop {p : Char → Bool} {x : Char} (hx : p x = false) :
    ∀ (a r : List Char), (∀ c ∈ a, p c = true) →
      (a ++ x :: r).takeWhile p = a ∧ (a ++ x :: r).dropWhile p = x :: r := by
  have hx' : ¬ p x = true := by simp [hx]
  intro a
  induction a with
  | nil =>
    intro r _
    simp [List.takeWhile_cons_of_neg hx', List.dropWhile_cons_of_neg hx']
  | cons c a ih =>
    intro r h
    have hc : p c = true := h c (by simp)
    have := ih r (fun d hd => h d (by simp [hd]))
    rw [List.cons_append, List.takeWhile_cons_of_pos hc, List.dropWhile_cons_of_pos hc]
    exact ⟨by rw [this.1], this.2⟩

theorem notSlash_of_slashFree {l : List Char} (h : SlashFree l) :
    ∀ c ∈ l, notSlash c = true := by
  intro c hc
  simpa [notSlash] using h c hc

/-- Completeness of one anchored match, for the tails the pattern accepts. -/
theorem matchTail_isSome (nl : Bool) (owner name t : List Char)
    (ho : owner ≠ []) (hn : name ≠ []) (so : SlashFree owner) (sn : SlashFree name)
    (ht : t = [] ∨ t = ['/'] ∨ (nl = true ∧ t = ['/', '\n'])) :
    (matchTail nl (owner ++ '/' :: (name ++ t))).isSome := by
  have hslash : notSlash '/' = false := by simp [notSlash]
  have hoe : owner.isEmpty = false := by simpa [List.isEmpty_iff] using ho
  have hne : name.isEmpty = false := by simpa [List.isEmpty_iff] using hn
  rcases ht with rfl | rfl | ⟨hnl, rfl⟩
  · have howner := takeWhile_append_stop hslash owner (name ++ []) (notSlash_of_slashFree so)
    have hname := takeWhile_all (p := notSlash) (l := name) (notSlash_of_slashFree sn)
    rw [List.append_nil] at howner ⊢
    simp [matchTail, howner.1, howner.2, hname.1, hname.2, hoe, hne]
  · have howner := takeWhile_append_stop hslash owner (name ++ ['/']) (notSlash_of_slashFree so)
    have hname := takeWhile_append_stop hslash name [] (notSlash_of_slashFree sn)
    simp [matchTail, howner.1, howner.2, hname.1, hname.2, hoe, hne, dollarOk]
  · have howner := takeWhile_append_stop hslash owner (name ++ ['/', '\n']) (notSlash_of_slashFree so)
    have hname := takeWhile_append_stop hslash name ['\n'] (notSlash_of_slashFree sn)
    subst hnl
    simp [matchTail, howner.1, howner.2, hname.1, hname.2, hoe, hne, dollarOk]

/-- Completeness of the search: if the anchored pattern matches at some
position, the search succeeds (perhaps at an earlier position). -/
theorem searchFrom_isSome (nl : Bool) : ∀ (l : List Char),
    (∃ pre rest, l = pre ++ hostChars ++ rest ∧ (matchTail nl rest).isSome) →
    (searchFrom nl l).isSome := by
  intro l
  induction l with
  | nil =>
    rintro ⟨pre, rest, hl, _⟩
    exact absurd hl.symm (by simp [hostChars])
  | cons c l ih =>
    rintro ⟨pre, rest, hl, hm⟩
    rcases pre with _ | ⟨c0, pre⟩
    · simp only [List.nil_append] at hl
      unfold searchFrom
      rw [if_pos ((isPrefixOf_iff_append _ _).mpr ⟨rest, hl⟩)]
      have hdrop : (c :: l).drop hostChars.length = rest := by
        rw [hl, List.drop_left]
      rw [hdrop]
      rcases hmt : matchTail nl rest with _ | g
      · rw [hmt] at hm; simp at hm
      · simp
    · simp only [List.cons_append, List.cons.injEq] at hl
      have hrec : (searchFrom nl l).isSome := ih ⟨pre, rest, hl.2, hm⟩
      unfold searchFrom
      by_cases hp : hostChars.isPrefixOf (c :: l) = true
      · rw [if_pos hp]
        rcases hmt : matchTail nl ((c :: l).drop hostChars.length) with _ | g
        · exact hrec
        · simp
      · rw [if_neg hp]
        exact hrec

/-- Any URL of the spec's strict form is found by the strict (`nl = false`)
search. -/
theorem specUrlForm_searchStrict {url : String} (h : specUrlForm url) :
    (searchFrom false url.toList).isSome := by
  obtain ⟨pre, owner, name, t, hurl, ho, hn, so, sn, ht⟩ := h
  refine searchFrom_isSome false url.toList ⟨pre, owner ++ '/' :: (name ++ t), ?_, ?_⟩
  · rw [hurl]; simp
  · exact matchTail_isSome false owner name t ho hn so sn
      (ht.elim Or.inl (fun h2 => Or.inr (Or.inl h2)))

/-- Any URL of the extended form is found by `get_repo_info`. -/
theorem specUrlFormExt_isSome {url : String} (h : specUrlFormExt url) :
    (get_repo_info url).isSome := by
  obtain ⟨pre, owner, name, t, hurl, ho, hn, so, sn, ht⟩ := h
  unfold get_repo_info
  rcases ht with rfl | rfl | rfl | rfl
  · exact searchFrom_isSome true url.toList ⟨pre, owner ++ '/' :: (name ++ []), by
      rw [hurl]; simp, matchTail_isSome true owner name [] ho hn so sn (Or.inl rfl)⟩
  · exact searchFrom_isSome true url.toList ⟨pre, owner ++ '/' :: (name ++ ['/']), by
      rw [hurl]; simp, matchTail_isSome true owner name ['/'] ho hn so sn (Or.inr (Or.inl rfl))⟩
  · -- a trailing newline with no slash: fold the newline into the name segment
    refine searchFrom_isSome true url.toList
      ⟨pre, owner ++ '/' :: ((name ++ ['\n']) ++ []), by rw [hurl]; simp, ?_⟩
    refine matchTail_isSome true owner (name ++ ['\n']) [] ho (by simp) so ?_ (Or.inl rfl)
    intro c hc
    rcases List.mem_append.mp hc with hc | hc
    · exact sn c hc
    · simp only [List.mem_singleton] at hc
      subst hc; decide
  · exact searchFrom_isSome true url.toList ⟨pre, owner ++ '/' :: (name ++ ['/', '\n']), by
      rw [hurl]; simp,
      matchTail_isSome true owner name ['/', '\n'] ho hn so sn (Or.inr (Or.inr ⟨rfl, rfl⟩))⟩

/-- C8 counterexample: the URL `"github.com/a/b/\n"` does not end in
`<host>/<owner>/<name>` with an optional trailing slash (its last character is
a newline), yet `get_repo_info` returns `("a", "b")` rather than null for both
fields, because Python's `$` anchor also matches just before a trailing
newline.  This falsifies the claim as stated. -/
theorem C8_counterexample :
    get_repo_info "github.com/a/b/\n" = some ("a", "b") ∧
    ¬ specUrlForm "github.com/a/b/\n" := by
  constructor
  · decide
  · intro h
    have hs := specUrlForm_searchStrict h
    have hnone : searchFrom false ("github.com/a/b/\n".toList) = none := by decide
    rw [hnone] at hs
    simp at hs

/-- C8 (amended): for every URL string that does not match the form
`<host>/<owner>/<name>` with an optional trailing slash, even after allowing
one further trailing newline (which Python's `$` anchor ignores), the
Reference Parser returns null for both the owner and the name. -/
theorem C8_null_unless_form (url : String) (h : ¬ specUrlFormExt url) :
    get_repo_info url = none := by
  rcases hg : get_repo_info url with _ | g
  · rfl
  · exfalso
    apply h
    unfold get_repo_info at hg
    obtain ⟨pre, rest, hdec, hmt⟩ := searchFrom_some hg
    rcases g with ⟨o, n⟩
    obtain ⟨owner, name, t, hrest, ho, hn, so, sn, ht⟩ := matchTail_some hmt
    refine ⟨pre, owner, name, t, ?_, ho, hn, so, sn, ?_⟩
    · rw [hdec, hrest]
      simp [List.append_assoc]
    · rcases ht with rfl | rfl | ⟨hnl, rfl⟩
      · exact Or.inl rfl
      · exact Or.inr (Or.inl rfl)
      · exact Or.inr (Or.inr (Or.inr rfl))

/-- Witness for C8: `"hello"` is not of the (extended) URL form, and the
parser indeed returns null on it. -/
theorem C8_witness : ¬ specUrlFormExt "hello" ∧ get_repo_info "hello" = none := by
  have hne : ¬ specUrlFormExt "hello" := by
    intro h
    have hs := specUrlFormExt_isSome h
    have hnone : get_repo_info "hello" = none := by decide
    rw [hnone] at hs
    simp at hs
  exact ⟨hne, C8_null_unless_form "hello" hne⟩

/-! ## Lemmas about the Resilient Request Executor -/

theorem range_max_retries : List.range max_retries = [0, 1, 2] := rfl

theorem rateLimitSleeps_ne_nil (r : Option Int) (now : Int) (a : Nat) :
    rateLimitSleeps r now a ≠ [] := by
  unfold rateLimitSleeps
  rcases r with _ | v
  · simp
  · dsimp only
    split <;> simp

/-- C2: with `max_retries = 3`, a quota-exceeded error on attempt 1 sleeps
(the reset-based wait, when applicable, followed by the unconditional backoff
sleep) and then retries the operation, so a success on attempt 2 is returned
after exactly 2 invocations; quota-exceeded errors through the final attempt
halt the whole analysis as Fatal (`st.stop`); and an invalid-credentials
error on attempt 1 halts immediately as Fatal after a single invocation, with
no sleeps and no further attempts. -/
theorem C2_quota_retry_credentials_fatal (α : Type) (op : Nat → GhOutcome α)
    (now : Int) (v : α) (r0 r1 r2 : Option Int) :
    (op 0 = .rateLimitExceeded r0 → op 1 = .ok v →
      handle_github_request op now =
        ⟨.success v, rateLimitSleeps r0 now 0, 2⟩ ∧ rateLimitSleeps r0 now 0 ≠ []) ∧
    (op 0 = .rateLimitExceeded r0 → op 1 = .rateLimitExceeded r1 →
      op 2 = .rateLimitExceeded r2 →
      handle_github_request op now =
        ⟨.halted .rateLimit, rateLimitSleeps r0 now 0 ++ rateLimitSleeps r1 now 1, 3⟩) ∧
    (op 0 = .badCredentials → handle_github_request op now = ⟨.halted .badCredentials, [], 1⟩) := by
  refine ⟨?_, ?_, ?_⟩
  · intro h0 h1
    refine ⟨?_, rateLimitSleeps_ne_nil r0 now 0⟩
    simp [handle_github_request, range_max_retries, handleFrom, h0, h1]
  · intro h0 h1 h2
    simp [handle_github_request, range_max_retries, handleFrom, h0, h1, h2]
  · intro h0
    simp [handle_github_request, range_max_retries, handleFrom, h0]

/-- Witness for C2: concrete operations exercising all three conjuncts. -/
theorem C2_witness :
    (handle_github_request (fun n => if n = 0 then .rateLimitExceeded none else .ok 7) 50 =
      ⟨.success 7, rateLimitSleeps none 50 0, 2⟩) ∧
    (handle_github_request (fun _ => (GhOutcome.rateLimitExceeded none : GhOutcome Nat)) 50 =
      ⟨.halted .rateLimit, rateLimitSleeps none 50 0 ++ rateLimitSleeps none 50 1, 3⟩) ∧
    (handle_github_request (fun _ => (GhOutcome.badCredentials : GhOutcome Nat)) 50 =
      ⟨.halted .badCredentials, [], 1⟩) := by
  refine ⟨?_, ?_, ?_⟩
  · exact ((C2_quota_retry_credentials_fatal Nat _ 50 7 none none none).1 rfl rfl).1
  · exact (C2_quota_retry_credentials_fatal Nat _ 50 0 none none none).2.1 rfl rfl rfl
  · exact (C2_quota_retry_credentials_fatal Nat _ 50 0 none none none).2.2 rfl

/-- C3: any error other than quota-exceeded, invalid-credentials and
malformed-data is retried after a linear backoff sleep of
`retry_delay * attemptNumber` seconds (2s after attempt 1, 4s after attempt
2), and when it still occurs on the final of the 3 attempts it is re-raised
to the caller — not classified Fatal. -/
theorem C3_transient_backoff_and_reraise (α : Type) (op : Nat → GhOutcome α)
    (now : Int) (v : α) (e0 e1 e2 : Nat) :
    (op 0 = .otherError e0 → op 1 = .ok v →
      handle_github_request op now = ⟨.success v, [2], 2⟩) ∧
    (op 0 = .otherError e0 → op 1 = .otherError e1 → op 2 = .ok v →
      handle_github_request op now = ⟨.success v, [2, 4], 3⟩) ∧
    (op 0 = .otherError e0 → op 1 = .otherError e1 → op 2 = .otherError e2 →
      handle_github_request op now = ⟨.raised e2, [2, 4], 3⟩) := by
  refine ⟨?_, ?_, ?_⟩
  · intro h0 h1
    simp [handle_github_request, range_max_retries, handleFrom, h0, h1, retry_delay]
  · intro h0 h1 h2
    simp [handle_github_request, range_max_retries, handleFrom, h0, h1, h2, retry_delay]
  · intro h0 h1 h2
    simp [handle_github_request, range_max_retries, handleFrom, h0, h1, h2, retry_delay]

/-- Witness for C3: concrete operations exercising all three conjuncts. -/
theorem C3_witness :
    (handle_github_request (fun n => if n = 0 then .otherError 5 else .ok 7) 50 =
      ⟨.success 7, [2], 2⟩) ∧
    (handle_github_request (fun n => if n ≤ 1 then .otherError n else .ok 9) 50 =
      ⟨.success 9, [2, 4], 3⟩) ∧
    (handle_github_request (fun n => (GhOutcome.otherError n : GhOutcome Nat)) 50 =
      ⟨.raised 2, [2, 4], 3⟩) := by
  refine ⟨?_, ?_, ?_⟩
  · exact (C3_transient_backoff_and_reraise Nat _ 50 7 5 0 0).1 rfl rfl
  · exact (C3_transient_backoff_and_reraise Nat _ 50 9 0 1 0).2.1 rfl rfl rfl
  · exact (C3_transient_backoff_and_reraise Nat _ 50 0 0 1 2).2.2 rfl rfl rfl

/-! ## Lemmas about the Commit Activity Aggregator -/

theorem bumpDay_keys (d : Nat) (b : List (Nat × Nat)) :
    (bumpDay d b).map Prod.fst = b.map Prod.fst := by
  unfold bumpDay
  rw [List.map_map]
  apply List.map_congr_left
  intro p _
  by_cases hp : p.1 = d <;> simp [hp]

theorem recordCommit_keys (b : List (Nat × Nat)) (e : Option Nat) :
    (recordCommit b e).map Prod.fst = b.map Prod.fst := by
  unfold recordCommit
  rcases e with _ | d
  · rfl
  · by_cases hb : b.any (fun p => p.1 == d) = true <;> simp [hb, bumpDay_keys]

theorem scanLoop_keys : ∀ (ev : List ScanEvent) (b : List (Nat × Nat)) (p : Nat),
    ((scanLoop ev b p).1).map Prod.fst = b.map Prod.fst := by
  intro ev
  induction ev with
  | nil => intro b p; rfl
  | cons e rest ih =>
    intro b p
    rcases e with d | _ | _
    · unfold scanLoop
      by_cases hp : commit_limit ≤ p
      · rw [if_pos hp]
      · rw [if_neg hp, ih, recordCommit_keys]
    · rfl
    · rfl

theorem seedDays_eq (s days : Nat) :
    seedDays s days = (windowKeys s days).map (fun k => (k, 0)) := by
  simp [seedDays, windowKeys, List.map_map, Function.comp]

theorem seedDays_keys (s days : Nat) :
    (seedDays s days).map Prod.fst = windowKeys s days := by
  simp [seedDays, windowKeys, List.map_map, Function.comp]

theorem windowKeys_pairwise (s days : Nat) :
    (windowKeys s days).Pairwise (· < ·) := by
  unfold windowKeys
  refine List.Pairwise.map _ ?_ (List.pairwise_lt_range (days + 1))
  intro a b hab
  exact Nat.add_lt_add_left hab s

theorem windowKeys_length (s days : Nat) : (windowKeys s days).length = days + 1 := by
  simp [windowKeys]

theorem sortDates_eq_self {l : List Nat} (h : l.Pairwise (· < ·)) : sortDates l = l :=
  List.Sorted.insertionSort_eq (h.imp fun hab => Nat.le_of_lt hab)

theorem sortRows_eq_self {b : List (Nat × Nat)} (h : (b.map Prod.fst).Pairwise (· < ·)) :
    sortRows b = b := by
  apply List.Sorted.insertionSort_eq
  exact (List.pairwise_map.mp h).imp fun hab => Nat.le_of_lt hab

/-- The no-capacity path (line 70): an all-zero series over the window. -/
theorem activity_no_capacity (s days : Nat) (ev : List ScanEvent) :
    get_commit_activity false s days ev =
      ⟨(windowKeys s days).map (fun d => (d, 0)), [.lowRateLimit]⟩ := by
  unfold get_commit_activity
  rw [if_pos rfl, seedDays_keys, sortDates_eq_self (windowKeys_pairwise s days)]

/-- The keys of the scan's final bucket are exactly the window days. -/
theorem scan_bucket_keys {s days : Nat} {ev : List ScanEvent}
    {b : List (Nat × Nat)} {p : Nat} {ex : ScanExit}
    (hscan : scanLoop ev (seedDays s days) 0 = (b, p, ex)) :
    b.map Prod.fst = windowKeys s days := by
  have h := scanLoop_keys ev (seedDays s days) 0
  rw [hscan] at h
  rw [h, seedDays_keys]

theorem scan_bucket_pairwise {s days : Nat} {ev : List ScanEvent}
    {b : List (Nat × Nat)} {p : Nat} {ex : ScanExit}
    (hscan : scanLoop ev (seedDays s days) 0 = (b, p, ex)) :
    (b.map Prod.fst).Pairwise (· < ·) := by
  rw [scan_bucket_keys hscan]
  exact windowKeys_pairwise s days

/-- A scan that runs to completion returns its bucket with no advisory. -/
theorem activity_finished {s days : Nat} {ev : List ScanEvent}
    {b : List (Nat × Nat)} {p : Nat}
    (hscan : scanLoop ev (seedDays s days) 0 = (b, p, .finished)) :
    get_commit_activity true s days ev = ⟨b, []⟩ := by
  simp [get_commit_activity, hscan, sortRows_eq_self (scan_bucket_pairwise hscan)]

/-- A scan stopped by the cap returns its bucket with the capped advisory. -/
theorem activity_capped {s days : Nat} {ev : List ScanEvent}
    {b : List (Nat × Nat)} {p : Nat}
    (hscan : scanLoop ev (seedDays s days) 0 = (b, p, .cappedHit)) :
    get_commit_activity true s days ev = ⟨b, [.capped]⟩ := by
  simp [get_commit_activity, hscan, sortRows_eq_self (scan_bucket_pairwise hscan)]

/-- A scan aborted by a quota-exceeded error returns zero counts for every
window day, discarding the accumulated bucket values (line 103 rebuilds the
rows from the keys with count 0). -/
theorem activity_rateLimited {s days : Nat} {ev : List ScanEvent}
    {b : List (Nat × Nat)} {p : Nat}
    (hscan : scanLoop ev (seedDays s days) 0 = (b, p, .rateLimited)) :
    get_commit_activity true s days ev =
      ⟨(windowKeys s days).map (fun d => (d, 0)), [.rateLimitAbort]⟩ := by
  simp [get_commit_activity, hscan, scan_bucket_keys hscan,
    sortDates_eq_self (windowKeys_pairwise s days)]

/-- A scan aborted by any other error returns its accumulated bucket (line
107) with a warning. -/
theorem activity_otherFailed {s days : Nat} {ev : List ScanEvent}
    {b : List (Nat × Nat)} {p : Nat}
    (hscan : scanLoop ev (seedDays s days) 0 = (b, p, .otherFailed)) :
    get_commit_activity true s days ev = ⟨b, [.historyWarning]⟩ := by
  simp [get_commit_activity, hscan, sortRows_eq_self (scan_bucket_pairwise hscan)]

/-- A scan over commits only, short enough not to hit the cap, finishes and
folds `recordCommit` over the stream. -/
theorem scanLoop_commits : ∀ (dates : List (Option Nat)) (b : List (Nat × Nat)) (p : Nat),
    p + dates.length ≤ commit_limit →
    scanLoop (dates.map .commit) b p =
      (dates.foldl recordCommit b, p + dates.length, .finished) := by
  intro dates
  induction dates with
  | nil => intro b p _; simp [scanLoop]
  | cons d rest ih =>
    intro b p hlen
    have hp : ¬ commit_limit ≤ p := by
      simp only [List.length_cons] at hlen; omega
    simp only [List.map_cons, scanLoop, if_neg hp, List.foldl_cons, List.length_cons]
    rw [ih (recordCommit b d) (p + 1) (by simp only [List.length_cons] at hlen; omega)]
    congr 2
    omega

/-- A scan over more commits than the cap allows stops at the cap. -/
theorem scanLoop_capped : ∀ (dates : List (Option Nat)) (b : List (Nat × Nat)) (p : Nat),
    p ≤ commit_limit → commit_limit < p + dates.length →
    scanLoop (dates.map .commit) b p =
      ((dates.take (commit_limit - p)).foldl recordCommit b, commit_limit, .cappedHit) := by
  intro dates
  induction dates with
  | nil =>
    intro b p hp hlen
    simp only [List.length_nil, Nat.add_zero] at hlen
    omega
  | cons d rest ih =>
    intro b p hp hlen
    by_cases hcap : commit_limit ≤ p
    · have hpe : p = commit_limit := Nat.le_antisymm hp hcap
      subst hpe
      simp [scanLoop]
    · have hk : commit_limit - p = (commit_limit - (p + 1)) + 1 := by omega
      simp only [List.map_cons, scanLoop, if_neg hcap]
      rw [ih (recordCommit b d) (p + 1) (by omega)
        (by simp only [List.length_cons] at hlen; omega)]
      rw [hk, List.take_succ_cons, List.foldl_cons]

/-- A quota-exceeded exception raised by the iterator after a cap-respecting
run of commits aborts the scan with the bucket accumulated so far. -/
theorem scanLoop_error : ∀ (dates : List (Option Nat)) (tail : List ScanEvent)
    (b : List (Nat × Nat)) (p : Nat),
    p + dates.length ≤ commit_limit →
    scanLoop (dates.map .commit ++ .rateLimitErr :: tail) b p =
      (dates.foldl recordCommit b, p + dates.length, .rateLimited) := by
  intro dates
  induction dates with
  | nil => intro tail b p _; simp [scanLoop]
  | cons d rest ih =>
    intro tail b p hlen
    have hp : ¬ commit_limit ≤ p := by
      simp only [List.length_cons] at hlen; omega
    simp only [List.map_cons, List.cons_append, scanLoop, if_neg hp, List.foldl_cons,
      List.length_cons, List.append_eq]
    rw [ih tail (recordCommit b d) (p + 1) (by simp only [List.length_cons] at hlen; omega)]
    congr 2
    omega

theorem bumpDay_cons (d k v : Nat) (b : List (Nat × Nat)) :
    bumpDay d ((k, v) :: b) = (if k = d then (k, v + 1) else (k, v)) :: bumpDay d b := rfl

theorem rowsLookup_cons (d k v : Nat) (b : List (Nat × Nat)) :
    rowsLookup d ((k, v) :: b) = if k = d then some v else rowsLookup d b := rfl

theorem rowsLookup_bumpDay (d : Nat) : ∀ b : List (Nat × Nat),
    rowsLookup d (bumpDay d b) = (rowsLookup d b).map (· + 1) := by
  intro b
  induction b with
  | nil => rfl
  | cons kv b ih =>
    rcases kv with ⟨k, v⟩
    by_cases hk : k = d
    · rw [bumpDay_cons, if_pos hk, rowsLookup_cons, if_pos hk, rowsLookup_cons, if_pos hk]
      rfl
    · rw [bumpDay_cons, if_neg hk, rowsLookup_cons, if_neg hk, rowsLookup_cons, if_neg hk, ih]

theorem rowsLookup_bumpDay_ne {d' d : Nat} (hne : d' ≠ d) : ∀ b : List (Nat × Nat),
    rowsLookup d (bumpDay d' b) = rowsLookup d b := by
  intro b
  induction b with
  | nil => rfl
  | cons kv b ih =>
    rcases kv with ⟨k, v⟩
    by_cases hk : k = d'
    · have hkd : ¬ k = d := by rw [hk]; exact hne
      rw [bumpDay_cons, if_pos hk, rowsLookup_cons, if_neg hkd, rowsLookup_cons, if_neg hkd, ih]
    · by_cases hkd : k = d
      · rw [bumpDay_cons, if_neg hk, rowsLookup_cons, if_pos hkd, rowsLookup_cons, if_pos hkd]
      · rw [bumpDay_cons, if_neg hk, rowsLookup_cons, if_neg hkd, rowsLookup_cons, if_neg hkd, ih]

theorem rowsLookup_none_of_any_false {d : Nat} : ∀ {b : List (Nat × Nat)},
    b.any (fun p => p.1 == d) = false → rowsLookup d b = none := by
  intro b
  induction b with
  | nil => intro _; rfl
  | cons kv b ih =>
    rcases kv with ⟨k, v⟩
    intro h
    simp only [List.any_cons, Bool.or_eq_false_iff] at h
    have hk : ¬ k = d := by simpa using h.1
    rw [rowsLookup_cons, if_neg hk]
    exact ih h.2

theorem recordCommit_some (b : List (Nat × Nat)) (d : Nat) :
    recordCommit b (some d) =
      if b.any (fun p => p.1 == d) = true then bumpDay d b else b := rfl

theorem rowsLookup_recordCommit_self (d : Nat) (b : List (Nat × Nat)) :
    rowsLookup d (recordCommit b (some d)) = (rowsLookup d b).map (· + 1) := by
  rw [recordCommit_some]
  by_cases hb : b.any (fun p => p.1 == d) = true
  · rw [if_pos hb, rowsLookup_bumpDay]
  · rw [if_neg hb, rowsLookup_none_of_any_false (Bool.eq_false_iff.mpr hb)]
    rfl

theorem rowsLookup_recordCommit_other {e : Option Nat} {d : Nat} (hne : e ≠ some d)
    (b : List (Nat × Nat)) : rowsLookup d (recordCommit b e) = rowsLookup d b := by
  rcases e with _ | d'
  · rfl
  · rw [recordCommit_some]
    have hdd : d' ≠ d := by intro h; exact hne (by rw [h])
    by_cases hb : b.any (fun p => p.1 == d') = true
    · rw [if_pos hb, rowsLookup_bumpDay_ne hdd]
    · rw [if_neg hb]

/-- The bucket after folding a stream of commit dates counts, for each day,
the number of stream entries equal to that day. -/
theorem rowsLookup_foldl : ∀ (dates : List (Option Nat)) (b : List (Nat × Nat)) (d : Nat),
    rowsLookup d (dates.foldl recordCommit b) =
      (rowsLookup d b).map (fun v => v + dates.countP (fun e => e == some d)) := by
  intro dates
  induction dates with
  | nil =>
    intro b d
    rcases hb : rowsLookup d b with _ | v <;> simp [hb]
  | cons e rest ih =>
    intro b d
    rw [List.foldl_cons, ih]
    by_cases he : e = some d
    · subst he
      rw [rowsLookup_recordCommit_self]
      rcases hb : rowsLookup d b with _ | v
      · simp [hb]
      · simp [hb, List.countP_cons]
        omega
    · rw [rowsLookup_recordCommit_other he]
      have hcp : (fun e2 => e2 == some d) e = false := by simpa using he
      rcases hb : rowsLookup d b with _ | v <;>
        simp [hb, List.countP_cons, hcp]

theorem rowsLookup_mapZero {d : Nat} : ∀ {l : List Nat}, d ∈ l →
    rowsLookup d (l.map (fun k => (k, 0))) = some 0 := by
  intro l
  induction l with
  | nil => intro h; simp at h
  | cons k l ih =>
    intro h
    by_cases hk : k = d
    · simp [rowsLookup, hk]
    · rcases List.mem_cons.mp h with h | h
      · exact absurd h.symm hk
      · simp only [List.map_cons, rowsLookup, if_neg hk]
        exact ih h

theorem map_fst_zero_rows (l : List Nat) : (l.map (fun d => (d, 0))).map Prod.fst = l := by
  rw [List.map_map]
  conv_rhs => rw [← List.map_id l]
  apply List.map_congr_left
  intro a _
  rfl

/-- C5: for every window of `days` days the commit-activity output has exactly
`days + 1` rows, one per calendar day of the window, sorted strictly ascending
by date — on every path: normal scans, capped scans, aborted scans, the
quota-denied path, and the zero-commit case; when capacity is denied or the
API yields no commits, every count is 0. -/
theorem C5_series_has_one_row_per_window_day (cap : Bool) (s days : Nat)
    (ev : List ScanEvent) :
    ((get_commit_activity cap s days ev).rows.map Prod.fst = windowKeys s days) ∧
    ((get_commit_activity cap s days ev).rows.length = days + 1) ∧
    ((get_commit_activity cap s days ev).rows.Pairwise (fun a b => a.1 < b.1)) ∧
    (cap = false → ∀ q ∈ (get_commit_activity cap s days ev).rows, q.2 = 0) ∧
    (ev = [] → ∀ q ∈ (get_commit_activity cap s days ev).rows, q.2 = 0) := by
  have main : ((get_commit_activity cap s days ev).rows.map Prod.fst = windowKeys s days) := by
    rcases cap with _ | _
    · rw [activity_no_capacity]
      exact map_fst_zero_rows _
    · rcases hscan : scanLoop ev (seedDays s days) 0 with ⟨b, p, ex⟩
      rcases ex with _ | _ | _ | _
      · rw [activity_finished hscan]; exact scan_bucket_keys hscan
      · rw [activity_capped hscan]; exact scan_bucket_keys hscan
      · rw [activity_rateLimited hscan]; exact map_fst_zero_rows _
      · rw [activity_otherFailed hscan]; exact scan_bucket_keys hscan
  refine ⟨main, ?_, ?_, ?_, ?_⟩
  · have := congrArg List.length main
    simpa [windowKeys_length] using this
  · rw [← List.pairwise_map (f := Prod.fst) (R := (· < ·)), main]
    exact windowKeys_pairwise s days
  · rintro rfl q hq
    rw [activity_no_capacity] at hq
    simp only [ActivityResult.rows] at hq
    obtain ⟨k, _, rfl⟩ := List.mem_map.mp hq
    rfl
  · rintro rfl q hq
    have hscan : scanLoop [] (seedDays s days) 0 = (seedDays s days, 0, .finished) := rfl
    rcases cap with _ | _
    · rw [activity_no_capacity] at hq
      simp only [ActivityResult.rows] at hq
      obtain ⟨k, _, rfl⟩ := List.mem_map.mp hq
      rfl
    · rw [activity_finished hscan] at hq
      simp only [ActivityResult.rows, seedDays_eq] at hq
      obtain ⟨k, _, rfl⟩ := List.mem_map.mp hq
      rfl

/-- Witness for C5 at a concrete window and event stream: the quota-denied
hypothesis and the empty-stream hypothesis are both discharged, and the
zero-count conclusion is instantiated at the first row of the window. -/
theorem C5_witness :
    ((get_commit_activity false 4 2 []).rows.map Prod.fst = windowKeys 4 2) ∧
    ((get_commit_activity false 4 2 []).rows.length = 2 + 1) ∧
    (((4, 0) : Nat × Nat).2 = 0) ∧
    (((10, 0) : Nat × Nat).2 = 0) := by
  have h := C5_series_has_one_row_per_window_day false 4 2 []
  have h2 := C5_series_has_one_row_per_window_day true 10 1 []
  exact ⟨h.1, h.2.1, h.2.2.2.1 rfl (4, 0) (by decide), h2.2.2.2.2 rfl (10, 0) (by decide)⟩

/-- C4: when the scan's processed-commit count reaches the hard cap of 5000
with commits still arriving from the iterator, iteration stops, the result
carries the capped advisory (and no error advisory), and the day buckets are
exactly those of a scan over only the first 5000 commits. -/
theorem C4_cap_stops_scan_with_advisory (s days : Nat) (dates : List (Option Nat))
    (h : commit_limit < dates.length) :
    get_commit_activity true s days (dates.map .commit) =
      ⟨(get_commit_activity true s days ((dates.take commit_limit).map .commit)).rows,
        [.capped]⟩ := by
  have hcap := scanLoop_capped dates (seedDays s days) 0 (by omega) (by omega)
  rw [Nat.sub_zero] at hcap
  have hfin := scanLoop_commits (dates.take commit_limit) (seedDays s days) 0
    (by simp only [Nat.zero_add, List.length_take]; omega)
  rw [activity_capped hcap, activity_finished hfin]

/-- Witness for C4: 5001 commit events with missing dates hit the cap. -/
theorem C4_witness :
    commit_limit < (List.replicate (commit_limit + 1) (none : Option Nat)).length ∧
    get_commit_activity true 0 0 ((List.replicate (commit_limit + 1) (none : Option Nat)).map .commit) =
      ⟨(get_commit_activity true 0 0
          (((List.replicate (commit_limit + 1) (none : Option Nat)).take commit_limit).map .commit)).rows,
        [.capped]⟩ := by
  have hlen : commit_limit < (List.replicate (commit_limit + 1) (none : Option Nat)).length := by
    simp [List.length_replicate]
  exact ⟨hlen, C4_cap_stops_scan_with_advisory 0 0 _ hlen⟩

/-- C6: in a scan of at most 5000 commits where exactly 3 carry window day
`d1`, exactly 1 carries window day `d2`, and every other commit is dated
outside the window or has missing/unparseable author metadata, the series
counts 3 at `d1`, 1 at `d2`, and 0 at every other window day, with no error
or advisory raised. -/
theorem C6_bucket_counts (s days : Nat) (dates : List (Option Nat)) (d1 d2 : Nat)
    (h1 : d1 ∈ windowKeys s days) (h2 : d2 ∈ windowKeys s days) (_hne : d1 ≠ d2)
    (hc1 : dates.countP (fun e => e == some d1) = 3)
    (hc2 : dates.countP (fun e => e == some d2) = 1)
    (hout : ∀ e ∈ dates, e = some d1 ∨ e = some d2 ∨ ∀ d ∈ windowKeys s days, e ≠ some d)
    (hlen : dates.length ≤ commit_limit) :
    (rowsLookup d1 (get_commit_activity true s days (dates.map .commit)).rows = some 3) ∧
    (rowsLookup d2 (get_commit_activity true s days (dates.map .commit)).rows = some 1) ∧
    (∀ d ∈ windowKeys s days, d ≠ d1 → d ≠ d2 →
      rowsLookup d (get_commit_activity true s days (dates.map .commit)).rows = some 0) ∧
    (get_commit_activity true s days (dates.map .commit)).advisories = [] := by
  have hscan := scanLoop_commits dates (seedDays s days) 0 (by omega)
  rw [activity_finished hscan]
  have base : ∀ d ∈ windowKeys s days,
      rowsLookup d (dates.foldl recordCommit (seedDays s days)) =
        some (dates.countP (fun e => e == some d)) := by
    intro d hd
    rw [rowsLookup_foldl, seedDays_eq, rowsLookup_mapZero hd]
    simp
  refine ⟨?_, ?_, ?_, rfl⟩
  · have := base d1 h1
    rwa [hc1] at this
  · have := base d2 h2
    rwa [hc2] at this
  · intro d hd hd1 hd2
    have hzero : dates.countP (fun e => e == some d) = 0 := by
      rw [List.countP_eq_zero]
      intro e he
      rcases hout e he with rfl | rfl | hfar
      · simp only [beq_iff_eq, Option.some.injEq]
        intro h; exact hd1 h.symm
      · simp only [beq_iff_eq, Option.some.injEq]
        intro h; exact hd2 h.symm
      · simp only [beq_iff_eq]
        exact fun h => hfar d hd h
    have := base d hd
    rwa [hzero] at this

/-- Witness for C6: days 0 and 1 of a 3-day window carry 3 and 1 commits,
one commit is dated outside the window and one has missing metadata. -/
theorem C6_witness :
    (rowsLookup 0 (get_commit_activity true 0 2
        ([some 0, some 0, some 0, some 1, some 9, none].map .commit)).rows = some 3) ∧
    (rowsLookup 1 (get_commit_activity true 0 2
        ([some 0, some 0, some 0, some 1, some 9, none].map .commit)).rows = some 1) ∧
    (rowsLookup 2 (get_commit_activity true 0 2
        ([some 0, some 0, some 0, some 1, some 9, none].map .commit)).rows = some 0) ∧
    (get_commit_activity true 0 2
        ([some 0, some 0, some 0, some 1, some 9, none].map .commit)).advisories = [] := by
  have h := C6_bucket_counts 0 2 [some 0, some 0, some 0, some 1, some 9, none] 0 1
    (by decide) (by decide) (by decide) (by decide) (by decide) (by decide) (by decide)
  exact ⟨h.1, h.2.1, h.2.2.1 2 (by decide) (by decide) (by decide), h.2.2.2⟩

/-- C1 counterexample: one commit on day 0 is bucketed (the bucket accumulated
up to the abort point has count 1 at day 0), then a quota-exceeded error
aborts the scan — but the returned series is all zeros: the accumulated
partial counts are NOT returned, contradicting the claim as stated.  (The
result is still an ordinary return value with an advisory, not a halt.) -/
theorem C1_counterexample :
    ((scanLoop [ScanEvent.commit (some 0)] (seedDays 0 3) 0).1 =
      [(0, 1), (1, 0), (2, 0), (3, 0)]) ∧
    (get_commit_activity true 0 3 [.commit (some 0), .rateLimitErr] =
      ⟨[(0, 0), (1, 0), (2, 0), (3, 0)], [.rateLimitAbort]⟩) ∧
    ((get_commit_activity true 0 3 [.commit (some 0), .rateLimitErr]).rows ≠
      [(0, 1), (1, 0), (2, 0), (3, 0)]) := by
  refine ⟨by decide, by decide, by decide⟩

/-- C1 (amended): a quota-exceeded error raised while iterating commits
mid-scan aborts the aggregation and returns the full day-bucket series with
EVERY count zero (the counts accumulated before the abort are discarded),
together with an error advisory; the analysis as a whole is not halted (the
aggregator still returns a value). -/
theorem C1_rate_limit_mid_scan_returns_zeros (s days : Nat)
    (dates : List (Option Nat)) (tail : List ScanEvent)
    (hlen : dates.length ≤ commit_limit) :
    get_commit_activity true s days (dates.map .commit ++ .rateLimitErr :: tail) =
      ⟨(windowKeys s days).map (fun d => (d, 0)), [.rateLimitAbort]⟩ := by
  have hscan := scanLoop_error dates tail (seedDays s days) 0 (by omega)
  exact activity_rateLimited hscan

/-- Witness for C1 (amended) at a concrete aborted scan. -/
theorem C1_witness :
    ([some 0, some 0] : List (Option Nat)).length ≤ commit_limit ∧
    get_commit_activity true 0 3 ([some 0, some 0].map .commit ++ .rateLimitErr :: []) =
      ⟨(windowKeys 0 3).map (fun d => (d, 0)), [.rateLimitAbort]⟩ :=
  ⟨by decide, C1_rate_limit_mid_scan_returns_zeros 0 3 [some 0, some 0] [] (by decide)⟩

/-! ## Lemmas about the Contributor Ranking Aggregator -/

theorem mem_of_rank {x : RawContributor} {l : List RawContributor}
    (hx : x ∈ rankContributors l) : x ∈ l := by
  unfold rankContributors sortContributors at hx
  exact (List.perm_insertionSort contribGe l).mem_iff.mp (List.mem_of_mem_take hx)

theorem rank_length_le (l : List RawContributor) : (rankContributors l).length ≤ 10 := by
  unfold rankContributors
  rw [List.length_take]
  omega

theorem rank_ne_nil {l : List RawContributor} (h : l ≠ []) : rankContributors l ≠ [] := by
  intro hnil
  apply h
  have hlen := congrArg List.length hnil
  simp only [rankContributors, sortContributors, List.length_take,
    List.length_insertionSort, List.length_nil] at hlen
  have hzero : l.length = 0 := by omega
  exact List.length_eq_zero.mp hzero

theorem rank_sorted (l : List RawContributor) :
    List.Sorted contribGe (rankContributors l) := by
  unfold rankContributors sortContributors
  exact List.Pairwise.sublist (List.take_sublist 10 _) (List.sorted_insertionSort contribGe l)

theorem sortContributors_perm (l : List RawContributor) :
    List.Perm (sortContributors l) l :=
  List.perm_insertionSort contribGe l

/-- Inserting an element preserves, for every contribution value `k`, the
subsequence of records with that value as if the element had been prepended:
this is stability of the sort for ties. -/
theorem filter_orderedInsert (k : Nat) (a : RawContributor) :
    ∀ l : List RawContributor,
      (List.orderedInsert contribGe a l).filter (fun x => x.contributions == k) =
        (a :: l).filter (fun x => x.contributions == k) := by
  intro l
  induction l with
  | nil => rfl
  | cons b l ih =>
    by_cases hab : contribGe a b
    · simp only [List.orderedInsert, if_pos hab]
    · simp only [List.orderedInsert, if_neg hab]
      have hlt : a.contributions < b.contributions :=
        Nat.not_le.mp (by simpa [contribGe] using hab)
      by_cases hpb : (b.contributions == k) = true
      · have hpa : (a.contributions == k) = false := by
          rw [beq_eq_false_iff_ne]
          simp only [beq_iff_eq] at hpb
          omega
        simp [List.filter_cons, hpb, hpa, ih]
      · have hpb' : (b.contributions == k) = false := Bool.eq_false_iff.mpr hpb
        simp [List.filter_cons, hpb', ih]

/-- Stability of the full sort: ties keep their original relative order. -/
theorem filter_sortContributors (k : Nat) :
    ∀ l : List RawContributor,
      (sortContributors l).filter (fun x => x.contributions == k) =
        l.filter (fun x => x.contributions == k) := by
  intro l
  induction l with
  | nil => rfl
  | cons a l ih =>
    unfold sortContributors at ih ⊢
    simp only [List.insertionSort]
    rw [filter_orderedInsert, List.filter_cons, List.filter_cons, ih]

/-- Definitional unfolding of the aggregator on a delivered listing. -/
theorem get_contributor_stats_ok (l : List RawContributor) :
    get_contributor_stats true (.ok l) =
      if l.isEmpty = true then none
      else if (extractRecords (rankContributors l)).isEmpty = true then none
      else some (extractRecords (rankContributors l)) := rfl

/-- When the listing is nonempty and every per-contributor extraction
succeeds, the aggregator returns exactly the ranked, truncated records. -/
theorem stats_all_ok {l : List RawContributor} (hne : l ≠ [])
    (hok : ∀ x ∈ l, x.fetchOk = true) :
    get_contributor_stats true (.ok l) = some ((rankContributors l).map toContribRecord) := by
  rw [get_contributor_stats_ok]
  have hemp : ¬ l.isEmpty = true := by simpa [List.isEmpty_iff] using hne
  rw [if_neg hemp]
  have hext : extractRecords (rankContributors l) = (rankContributors l).map toContribRecord := by
    unfold extractRecords
    rw [List.filter_eq_self.mpr]
    intro x hx
    exact hok x (mem_of_rank hx)
  rw [hext, if_neg (by
    simp only [List.isEmpty_iff, List.map_eq_nil_iff]
    exact rank_ne_nil hne)]

theorem stats_some_bounds {cap : Bool} {fetched : Except Nat (List RawContributor)}
    {res : List ContribRecord} (h : get_contributor_stats cap fetched = some res) :
    1 ≤ res.length ∧ res.length ≤ 10 := by
  rcases cap with _ | _
  · simp [get_contributor_stats] at h
  rcases fetched with e | l
  · simp [get_contributor_stats] at h
  rw [get_contributor_stats_ok] at h
  by_cases hemp : l.isEmpty = true
  · rw [if_pos hemp] at h
    simp at h
  rw [if_neg hemp] at h
  by_cases hde : (extractRecords (rankContributors l)).isEmpty = true
  · rw [if_pos hde] at h
    simp at h
  rw [if_neg hde] at h
  have hres : extractRecords (rankContributors l) = res := by
    simpa using h
  constructor
  · have : res ≠ [] := by
      rw [← hres]
      simpa [List.isEmpty_iff] using hde
    have := List.length_pos.mpr this
    omega
  · rw [← hres]
    calc (extractRecords (rankContributors l)).length
        ≤ (rankContributors l).length := by
          unfold extractRecords
          rw [List.length_map]
          exact List.length_filter_le _ _
      _ ≤ 10 := rank_length_le l

/-- C7: the Contributor Ranking Aggregator sorts the fetched records by
contribution count in descending order with a stable sort (ties keep original
API order), truncates to at most 10, and — when the listing is nonempty and
all extractions succeed — returns exactly those records; on the input with
contribution counts `[5, 50, 10, 50, 1]` the output order is
`[50, 50, 10, 5, 1]` with the two 50-records in their original order. -/
theorem C7_ranking_sorted_stable_truncated :
    (∀ l : List RawContributor, List.Sorted contribGe (rankContributors l)) ∧
    (∀ l : List RawContributor, (rankContributors l).length ≤ 10) ∧
    (∀ (l : List RawContributor) (k : Nat),
      (sortContributors l).filter (fun x => x.contributions == k) =
        l.filter (fun x => x.contributions == k)) ∧
    (∀ l : List RawContributor, List.Perm (sortContributors l) l) ∧
    (∀ l : List RawContributor, l ≠ [] → (∀ x ∈ l, x.fetchOk = true) →
      get_contributor_stats true (.ok l) =
        some ((rankContributors l).map toContribRecord)) ∧
    (rankContributors
        [⟨"u1", 5, "p1", "v1", true⟩, ⟨"u2", 50, "p2", "v2", true⟩,
         ⟨"u3", 10, "p3", "v3", true⟩, ⟨"u4", 50, "p4", "v4", true⟩,
         ⟨"u5", 1, "p5", "v5", true⟩] =
      [⟨"u2", 50, "p2", "v2", true⟩, ⟨"u4", 50, "p4", "v4", true⟩,
       ⟨"u3", 10, "p3", "v3", true⟩, ⟨"u1", 5, "p1", "v1", true⟩,
       ⟨"u5", 1, "p5", "v5", true⟩]) :=
  ⟨rank_sorted, rank_length_le, fun l k => filter_sortContributors k l,
    sortContributors_perm, fun _ hne hok => stats_all_ok hne hok, by decide⟩

/-- Witness for C7's conditional conjunct at a concrete nonempty all-ok
listing. -/
theorem C7_witness :
    get_contributor_stats true (.ok [⟨"u1", 5, "p1", "v1", true⟩]) =
      some ((rankContributors [⟨"u1", 5, "p1", "v1", true⟩]).map toContribRecord) :=
  C7_ranking_sorted_stable_truncated.2.2.2.2.1 [⟨"u1", 5, "p1", "v1", true⟩]
    (by decide) (by decide)

/-- C10: whenever the Contributor Ranking Aggregator returns a non-null
result, that result holds between 1 and 10 records; an all-failing extraction
pass and an empty fetched listing both yield null; an empty sequence is never
returned. -/
theorem C10_nonnull_result_bounded :
    (∀ (cap : Bool) (fetched : Except Nat (List RawContributor)) (res : List ContribRecord),
      get_contributor_stats cap fetched = some res → 1 ≤ res.length ∧ res.length ≤ 10) ∧
    (∀ (cap : Bool) (l : List RawContributor), (∀ x ∈ l, x.fetchOk = false) →
      get_contributor_stats cap (.ok l) = none) ∧
    (∀ cap : Bool, get_contributor_stats cap (.ok []) = none) ∧
    (∀ (cap : Bool) (fetched : Except Nat (List RawContributor)),
      get_contributor_stats cap fetched ≠ some []) := by
  have hfail : ∀ (cap : Bool) (l : List RawContributor), (∀ x ∈ l, x.fetchOk = false) →
      get_contributor_stats cap (.ok l) = none := by
    intro cap l hall
    rcases cap with _ | _
    · rfl
    rw [get_contributor_stats_ok]
    by_cases hemp : l.isEmpty = true
    · rw [if_pos hemp]
    rw [if_neg hemp]
    have hex : extractRecords (rankContributors l) = [] := by
      unfold extractRecords
      rw [List.filter_eq_nil_iff.mpr, List.map_nil]
      intro x hx
      simp [hall x (mem_of_rank hx)]
    rw [hex]
    rfl
  refine ⟨fun _ _ _ h => stats_some_bounds h, hfail, ?_, ?_⟩
  · intro cap
    rcases cap with _ | _ <;> simp [get_contributor_stats]
  · intro cap fetched h
    have hb := (stats_some_bounds h).1
    simp at hb

/-- Witness for C10: a successful concrete run is bounded, and a concrete
all-failing run yields null. -/
theorem C10_witness :
    (1 ≤ ([⟨"u1", 5, "p1", "v1"⟩] : List ContribRecord).length ∧
      ([⟨"u1", 5, "p1", "v1"⟩] : List ContribRecord).length ≤ 10) ∧
    get_contributor_stats true (.ok [⟨"u1", 5, "p1", "v1", false⟩]) = none :=
  ⟨C10_nonnull_result_bounded.1 true (.ok [⟨"u1", 5, "p1", "v1", true⟩])
      [⟨"u1", 5, "p1", "v1"⟩] (by decide),
    C10_nonnull_result_bounded.2.1 true [⟨"u1", 5, "p1", "v1", false⟩] (by decide)⟩

/-! ## Lemmas about the recent-commit rendering -/

theorem toList_asString (l : List Char) : (l.asString).toList = l := rfl

theorem pyLen_append (s t : String) : pyLen (s ++ t) = pyLen s + pyLen t := by
  simp [pyLen, String.toList, String.data_append]

theorem pyLen_takeChars (n : Nat) (s : String) : pyLen (pyTakeChars n s) = min n (pyLen s) := by
  simp [pyLen, pyTakeChars, toList_asString, List.length_take]

theorem pyLen_firstLine_le (s : String) : pyLen (pyFirstLine s) ≤ pyLen s := by
  simp only [pyLen, pyFirstLine, toList_asString]
  exact List.Sublist.length_le (List.takeWhile_sublist _)

/-- C9 (amended): for a rendered recent commit with a nonempty message, the
summary line is the first line of the message truncated to 50 characters with
an ellipsis appended exactly when the WHOLE message is longer than 50
characters (not when the first line is); the short hash is the first 7
characters of the SHA (and is 7 characters long whenever the SHA has at least
7 characters). -/
theorem C9_summary_truncates_on_message_length (c : RawCommit) (m : String)
    (hm : c.message = some m) (hne : m ≠ "") :
    ((renderRecentCommit c).summaryLine =
      (if 50 < pyLen m then pyTakeChars 50 (pyFirstLine m) ++ "..." else pyFirstLine m)) ∧
    ((renderRecentCommit c).summaryLine = pyTakeChars 50 (pyFirstLine m) ++ "..." ↔
      50 < pyLen m) ∧
    ((renderRecentCommit c).shortHash = pyTakeChars 7 c.sha) ∧
    (7 ≤ pyLen c.sha → pyLen (renderRecentCommit c).shortHash = 7) := by
  have hsum : (renderRecentCommit c).summaryLine =
      (if 50 < pyLen m then pyTakeChars 50 (pyFirstLine m) ++ "..." else pyFirstLine m) := by
    simp [renderRecentCommit, summaryOf, hm, hne]
  refine ⟨hsum, ?_, rfl, ?_⟩
  · constructor
    · intro hEq
      by_contra hgt
      rw [hsum, if_neg hgt] at hEq
      have hlen := congrArg pyLen hEq
      rw [pyLen_append, pyLen_takeChars] at hlen
      have h1 : pyLen (pyFirstLine m) ≤ pyLen m := pyLen_firstLine_le m
      have h3 : pyLen "..." = 3 := rfl
      rw [h3] at hlen
      omega
    · intro hgt
      rw [hsum, if_pos hgt]
  · intro hsha
    have hh : (renderRecentCommit c).shortHash = pyTakeChars 7 c.sha := rfl
    rw [hh, pyLen_takeChars]
    omega

/-- Witness for C9 (amended) at a concrete short-message commit. -/
theorem C9_witness :
    ((renderRecentCommit ⟨"0123456789abcdef", some "abc", some "Ann", some 0, "u"⟩).summaryLine =
      (if 50 < pyLen "abc" then pyTakeChars 50 (pyFirstLine "abc") ++ "..."
       else pyFirstLine "abc")) ∧
    ((renderRecentCommit ⟨"0123456789abcdef", some "abc", some "Ann", some 0, "u"⟩).shortHash =
      pyTakeChars 7 "0123456789abcdef") ∧
    (pyLen (renderRecentCommit
        ⟨"0123456789abcdef", some "abc", some "Ann", some 0, "u"⟩).shortHash = 7) := by
  have h := C9_summary_truncates_on_message_length
    ⟨"0123456789abcdef", some "abc", some "Ann", some 0, "u"⟩ "abc" rfl (by decide)
  exact ⟨h.1, h.2.2.1, h.2.2.2 (by decide)⟩

/-- C9 counterexample: a commit message whose first line `"fix"` has only 3
characters but whose whole text has 52; the claim appends an ellipsis exactly
when the summary line exceeds 50 characters, so it predicts `"fix"`, while the
code tests `len(message) > 50` against the whole message (line 341) and
renders `"fix..."`. -/
theorem C9_counterexample :
    pyLen (pyFirstLine "fix\naaaaaaaaaaaaaaaaaaaaaaaaaaaaaaaaaaaaaaaaaaaaaaaa") ≤ 50 ∧
    claimSummaryLine "fix\naaaaaaaaaaaaaaaaaaaaaaaaaaaaaaaaaaaaaaaaaaaaaaaa" = "fix" ∧
    (renderRecentCommit
      ⟨"0123456789abcdef", some "fix\naaaaaaaaaaaaaaaaaaaaaaaaaaaaaaaaaaaaaaaaaaaaaaaa", some "Ann", some 0, "u"⟩).summaryLine = "fix..." ∧
    (renderRecentCommit
      ⟨"0123456789abcdef", some "fix\naaaaaaaaaaaaaaaaaaaaaaaaaaaaaaaaaaaaaaaaaaaaaaaa", some "Ann", some 0, "u"⟩).summaryLine ≠
      claimSummaryLine "fix\naaaaaaaaaaaaaaaaaaaaaaaaaaaaaaaaaaaaaaaaaaaaaaaa" := by
  refine ⟨by decide, by decide, by decide, by decide⟩

end RepoAnalyse
